import Mathlib

/-!
Verification of the text-classification experiment harness
(`src/code/main.py`, `src/st_pages/noise_viz.py`).

The Python pipeline is shallowly embedded: prediction score matrices are
lists of rows of rationals, label vectors are lists of integers, the
fallible dataset-preparation path returns `Except`. External library
calls made by the source (numpy `argmax`, sklearn `accuracy_score` /
`f1_score` / `train_test_split`, the HuggingFace tokenizer padding and
best-checkpoint selection) are embedded according to their documented
semantics at the call sites that `main.py` uses.
-/

namespace DataCentric

/-! ## Metric Engine (`compute_metrics`, `compute_metrics_detailed`) -/

/-- Auxiliary loop for `np.argmax`: scan the tail, remembering the current
maximum value and the index where it was first seen. -/
def npArgmaxAux {α : Type} [LinearOrder α] : List α → α → ℕ → ℕ → ℕ
  | [], _, _, best => best
  | x :: xs, cur, idx, best =>
      if cur < x then npArgmaxAux xs x (idx + 1) idx
      else npArgmaxAux xs cur (idx + 1) best

/-- Embedding of `np.argmax` on a one-dimensional array: index of the first
occurrence of the maximum (0 on the empty list, which numpy rejects). -/
def npArgmax {α : Type} [LinearOrder α] : List α → ℕ
  | [] => 0
  | x :: xs => npArgmaxAux xs x 1 0

/-- Embedding of `np.argmax(predictions, axis=1)` followed by the integer
comparison with labels: per-row first-max index, as an integer label. -/
def npArgmaxRows (P : List (List ℚ)) : List ℤ :=
  P.map (fun row => (npArgmax row : ℤ))

/-- Accuracy of a list of (true, predicted) pairs: matching pairs divided by
the number of pairs.  Used for the masked per-class accuracies. -/
def accuracyPairs (l : List (ℤ × ℤ)) : ℚ :=
  (l.countP (fun q => decide (q.1 = q.2)) : ℚ) / (l.length : ℚ)

/-- Embedding of `sklearn.metrics.accuracy_score(y_true, y_pred)` with the
default `normalize=True`: fraction of positions where the two vectors agree,
with the denominator `len(y_true)` (sklearn rejects unequal lengths). -/
def accuracyScore (y p : List ℤ) : ℚ :=
  ((y.zip p).countP (fun q => decide (q.1 = q.2)) : ℚ) / (y.length : ℚ)

/-- True positives of class `c`: rows where both the label and the
prediction are `c`. -/
def tpCount (c : ℤ) (y p : List ℤ) : ℕ :=
  (y.zip p).countP (fun q => decide (q.1 = c) && decide (q.2 = c))

/-- False positives of class `c`: rows predicted `c` whose label differs. -/
def fpCount (c : ℤ) (y p : List ℤ) : ℕ :=
  (y.zip p).countP (fun q => decide (q.1 ≠ c) && decide (q.2 = c))

/-- False negatives of class `c`: rows labelled `c` predicted otherwise. -/
def fnCount (c : ℤ) (y p : List ℤ) : ℕ :=
  (y.zip p).countP (fun q => decide (q.1 = c) && decide (q.2 ≠ c))

/-- Per-class F1 as sklearn computes it: `2*TP / (2*TP + FP + FN)`, and 0
instead of a division error when the denominator is 0 (sklearn
`zero_division` default). -/
def f1Class (c : ℤ) (y p : List ℤ) : ℚ :=
  let d : ℕ := 2 * tpCount c y p + fpCount c y p + fnCount c y p
  if d = 0 then 0 else 2 * (tpCount c y p : ℚ) / (d : ℚ)

/-- The label set that sklearn `f1_score` averages over when `labels=None`:
all class values present in either `y_true` or `y_pred`. -/
def classesFinset (y p : List ℤ) : Finset ℤ := (y ++ p).toFinset

/-- Embedding of `f1_score(y_true, y_pred, average="macro")`: unweighted
mean of the per-class F1 scores over every class present in either vector
(sklearn iterates them in sorted order; the sum is order-independent). -/
def meanF1 (y p : List ℤ) : ℚ :=
  (∑ c ∈ classesFinset y p, f1Class c y p) / ((classesFinset y p).card : ℚ)

/-- Applying a class renaming to a prediction score matrix: after renaming,
column `j` holds the score that previously belonged to the class renamed to
`j`, i.e. the old column `inv j` where `inv` inverts the renaming on the
column range. -/
def renameCols (inv : ℕ → ℕ) (P : List (List ℚ)) : List (List ℚ) :=
  P.map (fun row => (List.range row.length).map (fun j => row.getD (inv j) 0))

/-- Embedding of `compute_metrics` (main.py:87-94): arg-max the score
matrix per row, then report `accuracy_score` and macro `f1_score` as the
pair (accuracy, f1). -/
def computeMetrics (P : List (List ℚ)) (L : List ℤ) : ℚ × ℚ :=
  (accuracyScore L (npArgmaxRows P), meanF1 L (npArgmaxRows P))

/-- Insert an integer into an already ascending list, keeping it sorted. -/
def insertSorted (a : ℤ) : List ℤ → List ℤ
  | [] => [a]
  | b :: bs => if a ≤ b then a :: b :: bs else b :: insertSorted a bs

/-- Ascending insertion sort on integers. -/
def sortInts (l : List ℤ) : List ℤ := l.foldr insertSorted []

/-- The sorted list of classes that `f1_score(..., average=None)` reports,
in order: sorted distinct union of the classes in `y_true` and `y_pred`. -/
def sortedClasses (y p : List ℤ) : List ℤ := sortInts (y ++ p).dedup

/-- Embedding of `np.unique(labels)`: sorted distinct label values of the
ground-truth vector only. -/
def uniqueLabels (y : List ℤ) : List ℤ := sortInts y.dedup

/-- The array returned by `f1_score(labels, predictions, average=None)`:
per-class F1 for each class of the sorted union of both vectors. -/
def f1PerClassArr (y p : List ℤ) : List ℚ :=
  (sortedClasses y p).map (fun c => f1Class c y p)

/-- Embedding of `accuracy_score(labels[mask], predictions[mask])` for
`mask = labels == c`: boolean-mask both vectors by the true label being `c`
and take the accuracy of what remains. -/
def classAccuracy (c : ℤ) (y p : List ℤ) : ℚ :=
  accuracyPairs ((y.zip p).filter (fun q => decide (q.1 = c)))

/-- Embedding of `compute_metrics_detailed` (main.py:96-123) as the ordered
association list of emitted entries: overall accuracy and macro F1, then
one `f1_class_{label}` entry per value of `np.unique(labels)` whose value
is the like-indexed entry of the `average=None` F1 array, then one
`accuracy_class_{label}` entry per unique label (the dict `update` appends
them after the F1 entries). -/
def computeMetricsDetailed (P : List (List ℚ)) (L : List ℤ) : List (String × ℚ) :=
  let preds := npArgmaxRows P
  let uniq := uniqueLabels L
  let f1arr := f1PerClassArr L preds
  [("accuracy", accuracyScore L preds), ("f1", meanF1 L preds)]
    ++ uniq.enum.map (fun q => ("f1_class_" ++ toString q.2, f1arr.getD q.1 0))
    ++ uniq.map (fun lab => ("accuracy_class_" ++ toString lab, classAccuracy lab L preds))

/-! ## Dataset Preparer (`BERTDataset`, `data_setting`) -/

/-- Error taxonomy of the dataset-preparation path: `dataFormatError` is the
fatal lookup failure raised when a required DataFrame column is absent,
`emptyDatasetError` the fatal error `train_test_split` raises when a
partition would be empty, `configurationError` the fatal validation error
for an out-of-range split fraction. -/
inductive DataError where
  | dataFormatError
  | emptyDatasetError
  | configurationError
deriving DecidableEq, Repr

/-- One row of the labelled training table: the `text` cell and the
`target` cell. -/
structure LabeledRow where
  text : String
  target : ℤ
deriving DecidableEq, Repr

/-- The training table read by `pd.read_csv`: whether the `text` and
`target` columns are present, and the rows in file order (rows carry cell
values for both columns; an absent column means the corresponding cells
are never successfully accessed). -/
structure Table where
  hasText : Bool
  hasTarget : Bool
  rows : List LabeledRow
deriving DecidableEq, Repr

/-- One tokenized training sample as `BERTDataset` stores it: the padded
token ids, the attention mask (1 on real tokens, 0 on padding), and the
label. -/
structure TokenizedSample where
  inputIds : List ℕ
  attentionMask : List ℕ
  label : ℤ
deriving DecidableEq, Repr

/-- Padding token id of the `klue/bert-base` tokenizer (`[PAD]` = 0). -/
def padTokenId : ℕ := 0

/-- Embedding of one call
`tokenizer(text, padding="max_length", truncation=True, max_length=m)`:
the raw token ids of the tokenizer for the text (abstracted as `tok`) are
truncated from the end to at most `m` tokens, then padded up to exactly
`m`; the attention mask marks the real tokens with 1 and padding with 0. -/
def hfTokenize (tok : String → List ℕ) (maxLength : ℕ) (text : String) :
    List ℕ × List ℕ :=
  let raw := tok text
  let trunc := raw.take maxLength
  (trunc ++ List.replicate (maxLength - trunc.length) padTokenId,
   List.replicate trunc.length 1 ++ List.replicate (maxLength - trunc.length) 0)

/-- Embedding of `BERTDataset.__init__` (main.py:26-40): accessing
`data["text"]` and then `data["target"]` raises a fatal lookup error when
the column is absent; otherwise every row is tokenized to a fixed-length
sample paired with its label. -/
def bertDataset (hasText hasTarget : Bool) (rows : List LabeledRow)
    (tok : String → List ℕ) (maxLength : ℕ) :
    Except DataError (List TokenizedSample) :=
  if hasText = false then .error .dataFormatError
  else if hasTarget = false then .error .dataFormatError
  else .ok (rows.map (fun r =>
    { inputIds := (hfTokenize tok maxLength r.text).1
      attentionMask := (hfTokenize tok maxLength r.text).2
      label := r.target }))

/-- One step of a 32-bit linear congruential generator.  Stand-in for the
external numpy RNG stream that `train_test_split` draws from; the claims
depend only on the stream being a deterministic function of the seed. -/
def lcgNext (s : ℕ) : ℕ := (1664525 * s + 1013904223) % 4294967296

/-- Selection shuffle driven by the seeded generator state: repeatedly pick
the `s % length`-th remaining element.  Model of the external RNG-driven
permutation inside `train_test_split`; only its determinism in the seed
matters to the claims. -/
def seededShuffleGo {α : Type} : ℕ → ℕ → List α → List α
  | 0, _, l => l
  | k + 1, s, l =>
    match l[s % l.length]? with
    | none => l
    | some x => x :: seededShuffleGo k (lcgNext s) (l.eraseIdx (s % l.length))

/-- Seeded deterministic permutation of a list (model of the numpy
permutation that `train_test_split(..., random_state=seed)` applies). -/
def seededShuffle {α : Type} (seed : ℕ) (l : List α) : List α :=
  seededShuffleGo l.length (lcgNext seed) l

/-- Number of test rows sklearn assigns for a fractional `test_size`:
`ceil(test_size * n)`. -/
def nTestOf (ts : ℚ) (n : ℕ) : ℕ := (⌈ts * (n : ℚ)⌉).toNat

/-- Embedding of `sklearn.model_selection.train_test_split(data,
test_size=ts, random_state=rs)` as called by `data_setting`: validate that
a fractional `test_size` lies in (0,1), fail when the train or test
partition would have zero rows, otherwise shuffle with the seed (falling
back to the ambient global RNG state only when no `random_state` is
given) and return `(train, test)` as the complementary slices. -/
def trainTestSplit {α : Type} (rows : List α) (ts : ℚ)
    (randomState : Option ℕ) (ambient : ℕ) :
    Except DataError (List α × List α) :=
  if 0 < ts ∧ ts < 1 then
    let n := rows.length
    let nTest := nTestOf ts n
    if nTest = 0 ∨ n - nTest = 0 then .error .emptyDatasetError
    else
      let shuffled := seededShuffle (randomState.getD ambient) rows
      .ok (shuffled.drop nTest, shuffled.take nTest)
  else .error .configurationError

/-- Embedding of `data_setting` (main.py:71-84): split the rows of the table
with the fixed seed (`random_state=SEED`), then build the train and
validation `BERTDataset`s.  The `ambient` argument is the global RNG state
a seedless split would consume; errors propagate fatally. -/
def data_setting (t : Table) (ts : ℚ) (seed maxLength : ℕ)
    (tok : String → List ℕ) (ambient : ℕ) :
    Except DataError (List TokenizedSample × List TokenizedSample) :=
  match trainTestSplit t.rows ts (some seed) ambient with
  | .error e => .error e
  | .ok (trainRows, validRows) =>
    match bertDataset t.hasText t.hasTarget trainRows tok maxLength with
    | .error e => .error e
    | .ok dataTrain =>
      match bertDataset t.hasText t.hasTarget validRows tok maxLength with
      | .error e => .error e
      | .ok dataValid => .ok (dataTrain, dataValid)

/-! ## Training Orchestrator (`train`, main.py:127-187) -/

/-- One per-epoch checkpoint: the saved model state of that epoch and the
validation macro-F1 (`eval_f1`) measured for it. -/
structure Checkpoint (σ : Type) where
  state : σ
  evalF1 : ℚ
deriving DecidableEq, Repr

/-- The best-checkpoint update the trainer performs after each evaluation
with `metric_for_best_model="eval_f1"` and `greater_is_better=True`:
replace the stored best only on a strictly greater metric (so the earliest
best epoch is kept on ties). -/
def betterCk {σ : Type} (best next : Checkpoint σ) : Checkpoint σ :=
  if best.evalF1 < next.evalF1 then next else best

/-- Best checkpoint over the per-epoch history, as tracked by the external
trainer under the flags set in `train` (main.py:161-163); `none` when no
epoch ever ran. -/
def selectBest {σ : Type} : List (Checkpoint σ) → Option (Checkpoint σ)
  | [] => none
  | c :: cs => some (cs.foldl betterCk c)

/-- Embedding of the model returned by `train` (main.py:127-187): with
`load_best_model_at_end=True` the trainer loads the state of the best
checkpoint into the returned model; `epochs` is the per-epoch checkpoint
history and `finalState` the weights after the last step (returned only
when no checkpoint exists). -/
def train {σ : Type} (epochs : List (Checkpoint σ)) (finalState : σ) : σ :=
  match selectBest epochs with
  | some best => best.state
  | none => finalState

/-! ## Inference Runner (`evaluating`, main.py:191-208) -/

/-- One row of the test table: its `text`, the remaining original columns
as name/value cells, and the (possibly absent) prior `target` column. -/
structure TestRow where
  text : String
  otherCols : List (String × String)
  target : Option ℤ
deriving DecidableEq, Repr

/-- Embedding of `os.path.join(a, b)` for a non-absolute second argument:
drop an empty first component, avoid doubling a trailing separator. -/
def osPathJoin (a b : String) : String :=
  if a = "" then b else if a.endsWith "/" then a ++ b else a ++ "/" ++ b

/-- Embedding of `torch.nn.Softmax(dim=1)` on one logits row: exponentiate
each score and divide by the total over the row. -/
noncomputable def softmax (l : List ℝ) : List ℝ :=
  l.map (fun x => Real.exp x / (l.map Real.exp).sum)

/-- Embedding of `evaluating` (main.py:191-208): iterate the test rows in
order, appending `argmax(softmax(model(text)))` to `preds` per row, then
assign the predictions as the `target` column (overwriting any prior one)
and write the table to `os.path.join(output_dir, "output.csv")`.  Returns
the written path and the written table. -/
noncomputable def evaluating (model : String → List ℝ) (rows : List TestRow)
    (output_dir : String) : String × List TestRow :=
  let preds : List ℕ :=
    rows.foldl (fun acc r => acc ++ [npArgmax (softmax (model r.text))]) []
  let outRows := List.zipWith (fun r p => { r with target := some (p : ℤ) }) rows preds
  (osPathJoin output_dir "output.csv", outRows)

/-! ## Noise visualization (`calculate_noise_ratio`, noise_viz.py:14-22) -/

/-- Membership in the Python `\s` class for `str` patterns: the Unicode
whitespace characters `re` matches. -/
def isReSpace (c : Char) : Bool :=
  decide (c.val = 0x09) || decide (c.val = 0x0a) || decide (c.val = 0x0b) ||
  decide (c.val = 0x0c) || decide (c.val = 0x0d) ||
  (decide (0x1c ≤ c.val) && decide (c.val ≤ 0x1f)) ||
  decide (c.val = 0x20) || decide (c.val = 0x85) || decide (c.val = 0xa0) ||
  decide (c.val = 0x1680) ||
  (decide (0x2000 ≤ c.val) && decide (c.val ≤ 0x200a)) ||
  decide (c.val = 0x2028) || decide (c.val = 0x2029) ||
  decide (c.val = 0x202f) || decide (c.val = 0x205f) || decide (c.val = 0x3000)

/-- A character the regex `[^a-zA-Z0-9\sㄱ-ㅎㅏ-ㅣ가-힣]` matches: anything
outside ASCII letters and digits, whitespace, Hangul jamo (U+3131-U+314E
consonants, U+314F-U+3163 vowels) and Hangul syllables (U+AC00-U+D7A3). -/
def matchesNoiseClass (c : Char) : Bool :=
  !((decide (0x61 ≤ c.val) && decide (c.val ≤ 0x7a)) ||
    (decide (0x41 ≤ c.val) && decide (c.val ≤ 0x5a)) ||
    (decide (0x30 ≤ c.val) && decide (c.val ≤ 0x39)) ||
    isReSpace c ||
    (decide (0x3131 ≤ c.val) && decide (c.val ≤ 0x314e)) ||
    (decide (0x314f ≤ c.val) && decide (c.val ≤ 0x3163)) ||
    (decide (0xac00 ≤ c.val) && decide (c.val ≤ 0xd7a3)))

/-- The per-row lambda inside `calculate_noise_ratio`: count the characters
matching the noise class, divide by the character count when positive, and
return 0 for empty text instead of dividing by zero. -/
def noiseRatioOfText (s : String) : ℚ :=
  if 0 < s.toList.length then
    (s.toList.countP matchesNoiseClass : ℚ) / (s.toList.length : ℚ)
  else 0

/-- Embedding of `calculate_noise_ratio` at column level: the new
`noise_ratio` column is the per-row lambda applied to every `text` cell. -/
def calculateNoiseRatios (texts : List String) : List ℚ :=
  texts.map noiseRatioOfText

/-! ## Helper lemmas -/

/-- Counting matching positions over a zip equals counting matching indices
over the index range, when the two vectors have equal length. -/
theorem countP_zip_eq_countP_range (f : ℤ → ℤ → Bool) :
    ∀ (y p : List ℤ), y.length = p.length →
      (y.zip p).countP (fun q => f q.1 q.2) =
        (List.range y.length).countP (fun i => f (y.getD i 0) (p.getD i 0)) := by
  intro y
  induction y with
  | nil => intro p _; simp
  | cons a ys ih =>
    intro p hlen
    cases p with
    | nil => simp at hlen
    | cons b ps =>
      simp only [List.length_cons, Nat.succ.injEq] at hlen
      simp only [List.zip_cons_cons, List.countP_cons, List.length_cons,
        List.range_succ_eq_map, List.countP_map]
      rw [ih ps hlen]
      have hcomp : ((fun i => f ((a :: ys).getD i 0) ((b :: ps).getD i 0)) ∘ Nat.succ) =
          (fun i => f (ys.getD i 0) (ps.getD i 0)) := by
        funext i
        simp [List.getD]
      rw [hcomp]
      simp [List.getD]

/-- Appending one mapped element per step from the left is the map. -/
theorem foldl_append_singleton {α β : Type} (g : α → β) :
    ∀ (rows : List α) (init : List β),
      rows.foldl (fun acc r => acc ++ [g r]) init = init ++ rows.map g := by
  intro rows
  induction rows with
  | nil => intro init; simp
  | cons x xs ih =>
    intro init
    simp only [List.foldl_cons, List.map_cons, ih]
    simp

/-- Zipping a list with a mapped copy of itself is a map over the list. -/
theorem zipWith_self_map {α β γ : Type} (h2 : α → β → γ) (g : α → β) :
    ∀ rows : List α,
      List.zipWith h2 rows (rows.map g) = rows.map (fun r => h2 r (g r)) := by
  intro rows
  induction rows with
  | nil => rfl
  | cons x xs ih => simp [ih]

/-- The first-max scan is unchanged by a strictly monotone transformation
of the values. -/
theorem npArgmaxAux_map_strictMono {α β : Type} [LinearOrder α] [LinearOrder β]
    {f : α → β} (hf : StrictMono f) :
    ∀ (l : List α) (cur : α) (idx best : ℕ),
      npArgmaxAux (l.map f) (f cur) idx best = npArgmaxAux l cur idx best := by
  intro l
  induction l with
  | nil => intro cur idx best; rfl
  | cons x xs ih =>
    intro cur idx best
    simp only [List.map_cons, npArgmaxAux, hf.lt_iff_lt]
    by_cases h : cur < x
    · simp only [if_pos h]; exact ih x (idx + 1) idx
    · simp only [if_neg h]; exact ih cur (idx + 1) best

/-- `np.argmax` is unchanged by a strictly monotone transformation. -/
theorem npArgmax_map_strictMono {α β : Type} [LinearOrder α] [LinearOrder β]
    {f : α → β} (hf : StrictMono f) (l : List α) :
    npArgmax (l.map f) = npArgmax l := by
  cases l with
  | nil => rfl
  | cons x xs =>
    simp only [List.map_cons, npArgmax]
    exact npArgmaxAux_map_strictMono hf xs x 1 0

/-- The total of the exponentials of a nonempty logits row is positive. -/
theorem sum_map_exp_pos (l : List ℝ) (h : l ≠ []) : 0 < (l.map Real.exp).sum := by
  cases l with
  | nil => exact absurd rfl h
  | cons x xs =>
    simp only [List.map_cons, List.sum_cons]
    refine add_pos_of_pos_of_nonneg (Real.exp_pos x) ?_
    refine List.sum_nonneg ?_
    intro y hy
    obtain ⟨z, _, rfl⟩ := List.mem_map.mp hy
    exact le_of_lt (Real.exp_pos z)

/-- Softmax never changes which index holds the first maximum: it divides
the strictly monotone exponential by a fixed positive total. -/
theorem npArgmax_softmax (l : List ℝ) : npArgmax (softmax l) = npArgmax l := by
  cases hl : l with
  | nil => rfl
  | cons x xs =>
    have hne : l ≠ [] := by rw [hl]; exact List.cons_ne_nil x xs
    have hS : 0 < (l.map Real.exp).sum := sum_map_exp_pos l hne
    have hmono : StrictMono (fun a : ℝ => Real.exp a / (l.map Real.exp).sum) := by
      intro a b hab
      exact (div_lt_div_iff_of_pos_right hS).mpr (Real.exp_lt_exp.mpr hab)
    rw [← hl]
    exact npArgmax_map_strictMono hmono l

/-! ## Claim theorems -/

/-- C3: the accuracy the Metric Engine reports lies in [0,1] and equals the
fraction of rows whose arg-max predicted class matches the true label. -/
theorem compute_metrics_accuracy_spec (P : List (List ℚ)) (L : List ℤ)
    (hlen : P.length = L.length) (hne : L ≠ []) :
    0 ≤ (computeMetrics P L).1 ∧ (computeMetrics P L).1 ≤ 1 ∧
    (computeMetrics P L).1 =
      (((List.range L.length).countP
        (fun i => decide ((npArgmaxRows P).getD i 0 = L.getD i 0))) : ℚ) /
        (L.length : ℚ) := by
  have hplen : L.length = (npArgmaxRows P).length := by
    simp [npArgmaxRows, hlen]
  have hacc : (computeMetrics P L).1 =
      ((L.zip (npArgmaxRows P)).countP (fun q => decide (q.1 = q.2)) : ℚ) /
        (L.length : ℚ) := rfl
  have hzlen : (L.zip (npArgmaxRows P)).length = L.length := by
    rw [List.length_zip, ← hplen, Nat.min_self]
  have hcount : (L.zip (npArgmaxRows P)).countP (fun q => decide (q.1 = q.2)) ≤
      L.length := hzlen ▸ List.countP_le_length _
  have hpos : (0 : ℚ) < (L.length : ℚ) := by
    exact_mod_cast List.length_pos.mpr hne
  refine ⟨?_, ?_, ?_⟩
  · rw [hacc]
    exact div_nonneg (Nat.cast_nonneg _) (Nat.cast_nonneg _)
  · rw [hacc]
    exact (div_le_one hpos).mpr (by exact_mod_cast hcount)
  · rw [hacc]
    congr 1
    have := countP_zip_eq_countP_range (fun a b => decide (a = b)) L (npArgmaxRows P) hplen
    rw [this]
    norm_cast
    exact List.countP_congr (fun i _ => by simp [eq_comm])

/-- C3 witness: a concrete 3-row, 2-class instance where two of three
arg-max predictions match the labels and the accuracy is 2/3. -/
theorem compute_metrics_accuracy_spec_witness :
    [[(0:ℚ), 1], [1, 0], [2, 2]].length = [(1:ℤ), 0, 1].length ∧
    [(1:ℤ), 0, 1] ≠ [] ∧
    0 ≤ (computeMetrics [[(0:ℚ), 1], [1, 0], [2, 2]] [(1:ℤ), 0, 1]).1 ∧
    (computeMetrics [[(0:ℚ), 1], [1, 0], [2, 2]] [(1:ℤ), 0, 1]).1 ≤ 1 ∧
    (computeMetrics [[(0:ℚ), 1], [1, 0], [2, 2]] [(1:ℤ), 0, 1]).1 =
      (((List.range ([(1:ℤ), 0, 1].length)).countP
        (fun i => decide ((npArgmaxRows [[(0:ℚ), 1], [1, 0], [2, 2]]).getD i 0 =
          [(1:ℤ), 0, 1].getD i 0))) : ℚ) / (([(1:ℤ), 0, 1].length : ℕ) : ℚ) := by
  have h := compute_metrics_accuracy_spec [[(0:ℚ), 1], [1, 0], [2, 2]]
    [(1:ℤ), 0, 1] rfl (by decide)
  exact ⟨rfl, by decide, h.1, h.2.1, h.2.2⟩

/-- C5: every sample produced by the Dataset Preparer has token ids and
attention mask of length exactly `max_length`; longer raw token lists are
truncated from the end, shorter ones padded with the pad token. -/
theorem bert_dataset_fixed_length (tok : String → List ℕ) (maxLength : ℕ)
    (rows : List LabeledRow) (text : String) :
    (∀ s ∈ (bertDataset true true rows tok maxLength).toOption.getD [],
      s.inputIds.length = maxLength ∧ s.attentionMask.length = maxLength) ∧
    (hfTokenize tok maxLength text).1.length = maxLength ∧
    (hfTokenize tok maxLength text).2.length = maxLength ∧
    (maxLength ≤ (tok text).length →
      (hfTokenize tok maxLength text).1 = (tok text).take maxLength) ∧
    ((tok text).length ≤ maxLength →
      (hfTokenize tok maxLength text).1 =
        tok text ++ List.replicate (maxLength - (tok text).length) padTokenId) := by
  have hlen1 : ∀ t : String, (hfTokenize tok maxLength t).1.length = maxLength := by
    intro t
    simp only [hfTokenize, List.length_append, List.length_take, List.length_replicate]
    omega
  have hlen2 : ∀ t : String, (hfTokenize tok maxLength t).2.length = maxLength := by
    intro t
    simp only [hfTokenize, List.length_append, List.length_take, List.length_replicate]
    omega
  refine ⟨?_, hlen1 text, hlen2 text, ?_, ?_⟩
  · intro s hs
    simp only [bertDataset, Bool.true_eq_false, if_false, Except.toOption,
      Option.getD_some] at hs
    obtain ⟨r, _, rfl⟩ := List.mem_map.mp hs
    exact ⟨hlen1 r.text, hlen2 r.text⟩
  · intro h
    have htake : ((tok text).take maxLength).length = maxLength := by
      simp [List.length_take, Nat.min_eq_left h]
    simp only [hfTokenize, htake, Nat.sub_self, List.replicate_zero, List.append_nil]
  · intro h
    have htake : (tok text).take maxLength = tok text := List.take_of_length_le h
    simp only [hfTokenize, htake]

/-- C5 witness: with a tokenizer yielding one token per character and
`max_length` 4, a 6-character text is truncated to its first 4 tokens and
a 2-character text is padded with 2 pad tokens; both end up at length 4. -/
theorem bert_dataset_fixed_length_witness :
    4 ≤ ((fun s : String => List.replicate s.length 5) "abcdef").length ∧
    (hfTokenize (fun s : String => List.replicate s.length 5) 4 "abcdef").1 =
      ((fun s : String => List.replicate s.length 5) "abcdef").take 4 ∧
    (hfTokenize (fun s : String => List.replicate s.length 5) 4 "abcdef").1.length = 4 ∧
    ((fun s : String => List.replicate s.length 5) "ab").length ≤ 4 ∧
    (hfTokenize (fun s : String => List.replicate s.length 5) 4 "ab").1 =
      (fun s : String => List.replicate s.length 5) "ab" ++
        List.replicate (4 - ((fun s : String => List.replicate s.length 5) "ab").length)
          padTokenId := by
  refine ⟨by decide, ?_, ?_, by decide, ?_⟩
  · exact (bert_dataset_fixed_length (fun s : String => List.replicate s.length 5)
      4 [] "abcdef").2.2.2.1 (by decide)
  · exact (bert_dataset_fixed_length (fun s : String => List.replicate s.length 5)
      4 [] "abcdef").2.1
  · exact (bert_dataset_fixed_length (fun s : String => List.replicate s.length 5)
      4 [] "ab").2.2.2.2 (by decide)

/-- C6: the train/validation split and the whole dataset preparation are
independent of the ambient global RNG state, because `data_setting` passes
the fixed `random_state=SEED`: same rows, seed and fraction give the same
partition on every run. -/
theorem data_split_deterministic (t : Table) (ts : ℚ) (seed maxLength : ℕ)
    (tok : String → List ℕ) (g1 g2 : ℕ) :
    trainTestSplit t.rows ts (some seed) g1 = trainTestSplit t.rows ts (some seed) g2 ∧
    data_setting t ts seed maxLength tok g1 = data_setting t ts seed maxLength tok g2 :=
  ⟨rfl, rfl⟩

/-- C7: the Inference Runner writes to `os.path.join(output_dir,
"output.csv")` a table with exactly one row per input row, in input order,
each original row augmented with a `target` column holding the arg-max
predicted label of the model on the text of that row (overwriting any prior
`target`). -/
theorem evaluating_output_spec (model : String → List ℝ) (rows : List TestRow)
    (output_dir : String) :
    (evaluating model rows output_dir).1 = osPathJoin output_dir "output.csv" ∧
    (evaluating model rows output_dir).2 =
      rows.map (fun r => { r with target := some ((npArgmax (model r.text) : ℕ) : ℤ) }) ∧
    (evaluating model rows output_dir).2.length = rows.length := by
  have hpreds : rows.foldl (fun acc r => acc ++ [npArgmax (softmax (model r.text))]) [] =
      rows.map (fun r => npArgmax (softmax (model r.text))) := by
    simpa using foldl_append_singleton (fun r : TestRow => npArgmax (softmax (model r.text))) rows []
  have h2 : (evaluating model rows output_dir).2 =
      rows.map (fun r => { r with target := some ((npArgmax (model r.text) : ℕ) : ℤ) }) := by
    simp only [evaluating]
    rw [hpreds, zipWith_self_map]
    simp only [npArgmax_softmax]
  exact ⟨rfl, h2, by rw [h2]; simp⟩

/-- C9: the predicted label the Inference Runner computes as the arg-max
of the softmax of the logits equals the arg-max of the raw logits. -/
theorem softmax_preserves_argmax (logits : List ℝ) :
    npArgmax (softmax logits) = npArgmax logits :=
  npArgmax_softmax logits

/-- C10: the per-row noise ratio is well-defined and lies in [0,1], and the
empty text gets ratio 0 instead of a division by zero; the column function
applies the per-row ratio to every text. -/
theorem noise_ratio_bounds (s : String) (texts : List String) :
    0 ≤ noiseRatioOfText s ∧ noiseRatioOfText s ≤ 1 ∧
    noiseRatioOfText "" = 0 ∧
    calculateNoiseRatios texts = texts.map noiseRatioOfText := by
  refine ⟨?_, ?_, by decide, rfl⟩
  · rw [noiseRatioOfText]
    split
    · exact div_nonneg (Nat.cast_nonneg _) (Nat.cast_nonneg _)
    · exact le_refl 0
  · rw [noiseRatioOfText]
    split
    · rename_i h
      have hpos : (0 : ℚ) < (s.toList.length : ℚ) := by exact_mod_cast h
      exact (div_le_one hpos).mpr (by exact_mod_cast List.countP_le_length _)
    · exact zero_le_one

/-- C1 evaluation at a failing input: with labels `[1, 1]` and predictions
`argmax([[1,0],[0,1]]) = [0, 1]`, `np.unique(labels) = [1]` but the
`average=None` F1 array covers the sorted union `[0, 1]`, so the emitted
`f1_class_1` entry holds the class-0 F1 value 0 instead of the true F1 of class 1,
which is 2/3. -/
theorem detailed_metrics_f1_key_misaligned :
    (computeMetricsDetailed [[(1:ℚ), 0], [0, 1]] [(1:ℤ), 1]).lookup "f1_class_1" =
      some ((f1PerClassArr [(1:ℤ), 1] (npArgmaxRows [[(1:ℚ), 0], [0, 1]])).getD 0 0) ∧
    (f1PerClassArr [(1:ℤ), 1] (npArgmaxRows [[(1:ℚ), 0], [0, 1]])).getD 0 0 =
      f1Class 0 [(1:ℤ), 1] [(0:ℤ), 1] ∧
    f1Class 0 [(1:ℤ), 1] [(0:ℤ), 1] = 0 ∧
    f1Class 1 [(1:ℤ), 1] (npArgmaxRows [[(1:ℚ), 0], [0, 1]]) = 2/3 ∧
    (0 : ℚ) ≠ 2/3 := by
  have hargmax : npArgmaxRows [[(1:ℚ), 0], [0, 1]] = [(0:ℤ), 1] := by decide
  have hsorted : sortedClasses [(1:ℤ), 1] [(0:ℤ), 1] = [0, 1] := by decide
  refine ⟨rfl, ?_, ?_, ?_, by norm_num⟩
  · rw [hargmax]
    simp [f1PerClassArr, hsorted]
  · norm_num [f1Class, tpCount, fpCount, fnCount]
  · rw [hargmax]
    norm_num [f1Class, tpCount, fpCount, fnCount]

/-- C2: dataset preparation fails fatally (an `Except.error` that the
pipeline never catches) with a data-format error when a required column is
missing, and with an empty-dataset error when the train or test partition
of the split would have zero rows. -/
theorem data_setting_error_conditions (t : Table) (ts : ℚ) (seed maxLength : ℕ)
    (tok : String → List ℕ) (g : ℕ) :
    ((t.hasText = false ∨ t.hasTarget = false) → 0 < ts → ts < 1 →
      nTestOf ts t.rows.length ≠ 0 → t.rows.length - nTestOf ts t.rows.length ≠ 0 →
      data_setting t ts seed maxLength tok g = .error .dataFormatError) ∧
    (0 < ts → ts < 1 →
      (nTestOf ts t.rows.length = 0 ∨ t.rows.length - nTestOf ts t.rows.length = 0) →
      data_setting t ts seed maxLength tok g = .error .emptyDatasetError) := by
  constructor
  · intro hcol h0 h1 hnt hntr
    rcases hcol with h | h
    · cases htg : t.hasTarget <;>
        simp [data_setting, trainTestSplit, bertDataset, h, h0, h1, hnt, hntr, htg]
    · cases htx : t.hasText <;>
        simp [data_setting, trainTestSplit, bertDataset, h, h0, h1, hnt, hntr, htx]
  · intro h0 h1 hor
    simp only [data_setting, trainTestSplit, if_pos (And.intro h0 h1), if_pos hor]

/-- C2 witness: a 2-row table missing the `text` column aborts with the
data-format error, and a 1-row table with `test_size = 1/2` (so the train
partition would be empty) aborts with the empty-dataset error. -/
theorem data_setting_error_conditions_witness :
    (0:ℚ) < 1/2 ∧ (1/2:ℚ) < 1 ∧
    data_setting ⟨false, true, [⟨"a", 0⟩, ⟨"b", 1⟩]⟩ (1/2) 42 10 (fun _ => []) 0 =
      .error .dataFormatError ∧
    data_setting ⟨true, true, [⟨"a", 0⟩]⟩ (1/2) 42 10 (fun _ => []) 0 =
      .error .emptyDatasetError := by
  have h2 : nTestOf (1/2) 2 = 1 := by norm_num [nTestOf]
  have hc : ⌈(1/2 : ℚ)⌉ = 1 := by
    rw [Int.ceil_eq_iff]
    norm_num
  have h1 : nTestOf (1/2) 1 = 1 := by norm_num [nTestOf, hc]
  refine ⟨by norm_num, by norm_num, ?_, ?_⟩
  · refine (data_setting_error_conditions ⟨false, true, [⟨"a", 0⟩, ⟨"b", 1⟩]⟩
      (1/2) 42 10 (fun _ => []) 0).1 (Or.inl rfl) (by norm_num) (by norm_num) ?_ ?_
    · show nTestOf (1/2) 2 ≠ 0
      rw [h2]
      exact one_ne_zero
    · show 2 - nTestOf (1/2) 2 ≠ 0
      rw [h2]
      exact one_ne_zero
  · refine (data_setting_error_conditions ⟨true, true, [⟨"a", 0⟩]⟩
      (1/2) 42 10 (fun _ => []) 0).2 (by norm_num) (by norm_num) (Or.inr ?_)
    show 1 - nTestOf (1/2) 1 = 0
    rw [h1]

/-- Folding the strict-improvement update keeps either the start checkpoint
or one from the list. -/
theorem foldl_betterCk_mem {σ : Type} :
    ∀ (cs : List (Checkpoint σ)) (c : Checkpoint σ),
      cs.foldl betterCk c = c ∨ cs.foldl betterCk c ∈ cs := by
  intro cs
  induction cs with
  | nil => intro c; exact Or.inl rfl
  | cons x xs ih =>
    intro c
    rcases ih (betterCk c x) with h | h
    · rw [List.foldl_cons, h, betterCk]
      split
      · exact Or.inr (List.mem_cons_self x xs)
      · exact Or.inl rfl
    · exact Or.inr (List.mem_cons_of_mem x (by rw [List.foldl_cons]; exact h))

/-- The metric of the folded checkpoint dominates the start checkpoint and every
checkpoint in the list. -/
theorem foldl_betterCk_le {σ : Type} :
    ∀ (cs : List (Checkpoint σ)) (c : Checkpoint σ),
      c.evalF1 ≤ (cs.foldl betterCk c).evalF1 ∧
        ∀ e ∈ cs, e.evalF1 ≤ (cs.foldl betterCk c).evalF1 := by
  intro cs
  induction cs with
  | nil => intro c; exact ⟨le_refl _, by simp⟩
  | cons x xs ih =>
    intro c
    have hstep := ih (betterCk c x)
    have hc : c.evalF1 ≤ (betterCk c x).evalF1 := by
      rw [betterCk]
      split
      · rename_i hlt; exact le_of_lt hlt
      · exact le_refl _
    have hx : x.evalF1 ≤ (betterCk c x).evalF1 := by
      rw [betterCk]
      split
      · exact le_refl _
      · rename_i hlt; exact le_of_not_lt hlt
    refine ⟨le_trans hc hstep.1, ?_⟩
    intro e he
    rcases List.mem_cons.mp he with rfl | he2
    · exact le_trans hx hstep.1
    · exact hstep.2 e he2

/-- C4: the model `train` returns is the state of a checkpoint from the
epoch history whose validation macro-F1 dominates the score of every epoch
(greater is better); on the example history of the spec [0.70, 0.85, 0.60] the
the state of the second epoch is returned. -/
theorem train_returns_best_f1_checkpoint {σ : Type} (epochs : List (Checkpoint σ))
    (finalState : σ) (c : Checkpoint σ) (h : selectBest epochs = some c) :
    train epochs finalState = c.state ∧ c ∈ epochs ∧
    epochs.all (fun e => decide (e.evalF1 ≤ c.evalF1)) = true ∧
    ∀ (a b c2 d : σ),
      train [⟨a, 0.70⟩, ⟨b, 0.85⟩, ⟨c2, 0.60⟩] d = b := by
  have hexample : ∀ (a b c2 d : σ),
      train [⟨a, 0.70⟩, ⟨b, 0.85⟩, ⟨c2, 0.60⟩] d = b := by
    intro a b c2 d
    norm_num [train, selectBest, betterCk]
  cases epochs with
  | nil => simp [selectBest] at h
  | cons e es =>
    simp only [selectBest, Option.some.injEq] at h
    refine ⟨by simp only [train, selectBest, h], ?_, ?_, hexample⟩
    · rcases foldl_betterCk_mem es e with h2 | h2
      · rw [← h, h2]; exact List.mem_cons_self e es
      · rw [← h]; exact List.mem_cons_of_mem e h2
    · rw [List.all_eq_true]
      intro x hx
      rcases List.mem_cons.mp hx with rfl | hx2
      · exact decide_eq_true (h ▸ (foldl_betterCk_le es x).1)
      · exact decide_eq_true (h ▸ (foldl_betterCk_le es e).2 x hx2)

/-- C4 witness: for per-epoch macro-F1 scores [0.70, 0.85, 0.60] the best
checkpoint is that of epoch 2 and `train` returns its state, not that of
the final epoch. -/
theorem train_returns_best_f1_checkpoint_witness :
    selectBest [(⟨0, 0.70⟩ : Checkpoint ℕ), ⟨1, 0.85⟩, ⟨2, 0.60⟩] = some ⟨1, 0.85⟩ ∧
    train [(⟨0, 0.70⟩ : Checkpoint ℕ), ⟨1, 0.85⟩, ⟨2, 0.60⟩] 9 = 1 ∧
    (⟨1, 0.85⟩ : Checkpoint ℕ) ∈ [(⟨0, 0.70⟩ : Checkpoint ℕ), ⟨1, 0.85⟩, ⟨2, 0.60⟩] := by
  have hsel : selectBest [(⟨0, 0.70⟩ : Checkpoint ℕ), ⟨1, 0.85⟩, ⟨2, 0.60⟩] =
      some ⟨1, 0.85⟩ := by
    norm_num [selectBest, betterCk]
  exact ⟨hsel, (train_returns_best_f1_checkpoint _ 9 _ hsel).1,
    (train_returns_best_f1_checkpoint _ 9 _ hsel).2.1⟩

/-- Zipping two renamed vectors counts like the original pair vector under
the renamed predicate. -/
theorem countP_zip_map (rho : ℤ → ℤ) (y p : List ℤ) (f : ℤ × ℤ → Bool) :
    ((y.map rho).zip (p.map rho)).countP f =
      (y.zip p).countP (fun q => f (rho q.1, rho q.2)) := by
  rw [List.zip_map, List.countP_map]
  rfl

/-- True positives are preserved by an injective class renaming. -/
theorem tpCount_map {rho : ℤ → ℤ} (hrho : Function.Injective rho) (c : ℤ)
    (y p : List ℤ) : tpCount (rho c) (y.map rho) (p.map rho) = tpCount c y p := by
  rw [tpCount, tpCount, countP_zip_map]
  exact List.countP_congr (fun q _ => by simp [hrho.eq_iff])

/-- False positives are preserved by an injective class renaming. -/
theorem fpCount_map {rho : ℤ → ℤ} (hrho : Function.Injective rho) (c : ℤ)
    (y p : List ℤ) : fpCount (rho c) (y.map rho) (p.map rho) = fpCount c y p := by
  rw [fpCount, fpCount, countP_zip_map]
  exact List.countP_congr (fun q _ => by simp [hrho.eq_iff])

/-- False negatives are preserved by an injective class renaming. -/
theorem fnCount_map {rho : ℤ → ℤ} (hrho : Function.Injective rho) (c : ℤ)
    (y p : List ℤ) : fnCount (rho c) (y.map rho) (p.map rho) = fnCount c y p := by
  rw [fnCount, fnCount, countP_zip_map]
  exact List.countP_congr (fun q _ => by simp [hrho.eq_iff])

/-- Per-class F1 is preserved by an injective class renaming. -/
theorem f1Class_map {rho : ℤ → ℤ} (hrho : Function.Injective rho) (c : ℤ)
    (y p : List ℤ) : f1Class (rho c) (y.map rho) (p.map rho) = f1Class c y p := by
  rw [f1Class, f1Class, tpCount_map hrho, fpCount_map hrho, fnCount_map hrho]

/-- The class set of the renamed vectors is the image of the original
class set. -/
theorem classesFinset_map (rho : ℤ → ℤ) (y p : List ℤ) :
    classesFinset (y.map rho) (p.map rho) = (classesFinset y p).image rho := by
  ext z
  simp only [classesFinset, List.mem_toFinset, Finset.mem_image, List.mem_append,
    List.mem_map]
  constructor
  · rintro (⟨w, hw, rfl⟩ | ⟨w, hw, rfl⟩)
    · exact ⟨w, Or.inl hw, rfl⟩
    · exact ⟨w, Or.inr hw, rfl⟩
  · rintro ⟨w, hw | hw, rfl⟩
    · exact Or.inl ⟨w, hw, rfl⟩
    · exact Or.inr ⟨w, hw, rfl⟩

/-- Macro-F1 is invariant under an injective renaming applied to both the
true labels and the predicted labels. -/
theorem meanF1_map {rho : ℤ → ℤ} (hrho : Function.Injective rho) (y p : List ℤ) :
    meanF1 (y.map rho) (p.map rho) = meanF1 y p := by
  rw [meanF1, meanF1, classesFinset_map,
    Finset.sum_image (fun a _ b _ hab => hrho hab),
    Finset.card_image_of_injective _ hrho]
  congr 1
  exact Finset.sum_congr rfl (fun c _ => f1Class_map hrho c y p)

/-- C8 counterexample: the claim as stated fails on a row with tied
maximum scores.  For the score matrix [[1,1]] with label vector [0] and
the injective renaming swapping classes 0 and 1 (which leaves the tied
score row unchanged), macro-F1 is 1 before renaming and 0 after, because
`np.argmax` keeps picking the first maximum column. -/
theorem matrix_rename_changes_meanF1 :
    Function.Injective (fun z : ℤ => 1 - z) ∧
    renameCols (fun j => 1 - j) [[(1:ℚ), 1]] = [[(1:ℚ), 1]] ∧
    List.map (fun z : ℤ => 1 - z) [(0:ℤ)] = [(1:ℤ)] ∧
    (computeMetrics [[(1:ℚ), 1]] [(0:ℤ)]).2 = 1 ∧
    (computeMetrics (renameCols (fun j => 1 - j) [[(1:ℚ), 1]])
      (List.map (fun z : ℤ => 1 - z) [(0:ℤ)])).2 = 0 := by
  have hinj : Function.Injective (fun z : ℤ => 1 - z) := by
    intro a b hab
    have h2 : 1 - a = 1 - b := hab
    omega
  have hcols : renameCols (fun j => 1 - j) [[(1:ℚ), 1]] = [[(1:ℚ), 1]] := by decide
  have hlabs : List.map (fun z : ℤ => 1 - z) [(0:ℤ)] = [(1:ℤ)] := by decide
  refine ⟨hinj, hcols, hlabs, ?_, ?_⟩
  · norm_num [computeMetrics, meanF1, classesFinset, f1Class, tpCount, fpCount,
      fnCount, npArgmaxRows, npArgmax, npArgmaxAux]
  · rw [hcols, hlabs]
    norm_num [computeMetrics, meanF1, classesFinset, f1Class, tpCount, fpCount,
      fnCount, npArgmaxRows, npArgmax, npArgmaxAux]

/-- C8 amended: for every injective renaming of the class labels applied
consistently to the arg-max predicted labels and to the ground-truth
labels, the macro-F1 of the Metric Engine is unchanged. -/
theorem meanF1_rename_invariant (rho : ℤ → ℤ) (hrho : Function.Injective rho)
    (P : List (List ℚ)) (L : List ℤ) :
    meanF1 (L.map rho) ((npArgmaxRows P).map rho) = (computeMetrics P L).2 :=
  meanF1_map hrho L (npArgmaxRows P)

/-- C8 amended witness: shifting every class label by 5 leaves the
macro-F1 of a concrete 2-row instance unchanged at 1/3. -/
theorem meanF1_rename_invariant_witness :
    Function.Injective (fun z : ℤ => z + 5) ∧
    meanF1 (List.map (fun z : ℤ => z + 5) [(1:ℤ), 1])
      (List.map (fun z : ℤ => z + 5) (npArgmaxRows [[(0:ℚ), 1], [1, 0]])) =
      (computeMetrics [[(0:ℚ), 1], [1, 0]] [(1:ℤ), 1]).2 ∧
    (computeMetrics [[(0:ℚ), 1], [1, 0]] [(1:ℤ), 1]).2 = 1/3 := by
  have hinj : Function.Injective (fun z : ℤ => z + 5) := by
    intro a b hab
    have h2 : a + 5 = b + 5 := hab
    omega
  refine ⟨hinj, meanF1_rename_invariant _ hinj _ _, ?_⟩
  norm_num [computeMetrics, meanF1, classesFinset, f1Class, tpCount, fpCount,
    fnCount, npArgmaxRows, npArgmax, npArgmaxAux]

end DataCentric
